import Mathlib

/-!
Verification development for the D3D9Client planetary surface tile manager
(`src/Orbitersdk/D3D9Client/TileMgr.cpp`).

The `tex`/`ltex` field of a tile descriptor is a pointer-sized machine word
that, depending on the phase of the lifecycle, holds either a real GPU
texture pointer, the NULL pointer, or a raw numeric index into a texture
archive (the catalogue stores `t.sidx` there before textures are loaded).
We embed that word as `TexVal`, which records the provenance of the word;
`texWord` recovers the raw word the C code actually compares.  A real
texture pointer is never NULL, so handles map to positive words.
-/

/-- The value held by the pointer-sized `tex` / `ltex` field of `TILEDESC`:
a loaded texture pointer (never NULL), the NULL pointer, or an unresolved
numeric archive index stored by `TileManager::AddSubtileData`. -/
inductive TexVal : Type where
  | noTex : TexVal
  | handle (h : Nat) : TexVal
  | idx (n : Nat) : TexVal
deriving DecidableEq, Repr

/-- The raw machine word stored in the field: NULL is 0, a texture pointer is
a nonzero word (modelled as `h + 1`), a numeric index is the index itself. -/
def texWord : TexVal → Nat
  | TexVal.noTex => 0
  | TexVal.handle h => h + 1
  | TexVal.idx n => n

/-- `const DWORD NOTILE = (DWORD)-1` from TileMgr.cpp. -/
def NOTILE : Nat := 4294967295

/-- The mutable fields of one `TILEDESC` that the loading protocol touches. -/
structure TD where
  tex : TexVal
  ltex : TexVal
  flag : Nat
deriving DecidableEq, Repr

/-- `TileManager::AddSubtileTextures` resolution of one field: the word `w` is
reinterpreted as an archive index; `NOTILE` means no texture, an in-range
index takes the (possibly already consumed, hence optional) buffer entry,
and an out-of-range index is the `tmissing` inconsistency path yielding NULL. -/
def resolveIdx (w : Nat) (n : Nat) (buf : Nat → Option Nat) : TexVal :=
  if w = NOTILE then TexVal.noTex
  else if w < n then
    match buf w with
    | some h => TexVal.handle h
    | none => TexVal.noTex
  else TexVal.noTex

/-- Result of the loader thread's `ReadDDSSurface` call as stored by
`TileBuffer::LoadTile_ThreadProc`: a real texture on success, NULL on
failure or for the `NOTILE` sentinel. -/
def optTex : Option Nat → TexVal
  | some h => TexVal.handle h
  | none => TexVal.noTex

/-- Which array a descriptor lives in: `base` for the `tiledesc` array of
level 1..8 tiles, `pool` for descriptors allocated by `TileBuffer::AddTile`. -/
inductive TKind : Type where
  | base : TKind
  | pool : TKind

/-- The tile-descriptor state machine of TileMgr.cpp.  Each constructor is one
mutation of `{tex, ltex, flag}` that the source performs on a descriptor,
taken atomically (the loader publication happens under `hQueueMutex`,
serialised against the whole render-thread traversal):

* `create`: `TileBuffer::AddTile` zeroes the descriptor (`memset`); the base
  `tiledesc` array allocation is not in this file -- modelled from the spec:
  base tiles are created once at startup, all fields starting empty.
* `lmaskFlag`: `TileManager::LoadPatchData` / `LoadSpecularMasks` write a
  flag byte (or 1, or masked variants) to a base tile.
* `baseTex` / `baseLtex`: `TileManager::LoadTextures` line 303 and
  `LoadSpecularMasks` line 430 store loaded texture pointers in base tiles.
* `subtileData`: `TileManager::AddSubtileData` lines 254-268 stores the raw
  catalogue indices and sets the not-loaded bit 0x80 (plus 0x40 when the
  table of contents is old-style).
* `subtileTextures`: `TileManager::AddSubtileTextures` lines 371-396
  reinterprets the stored words as indices, replaces both fields by real
  pointers or NULL, then clears bit 0x80.
* `asyncApply`: `TileBuffer::LoadTile_ThreadProc` lines 1414-1421 publishes
  the loaded surface and mask (each a pointer or NULL) and does
  `flag &= 0x3F`. -/
inductive Reach : TKind → TD → Prop where
  | create (k : TKind) : Reach k ⟨TexVal.noTex, TexVal.noTex, 0⟩
  | lmaskFlag (f : Nat) (d : TD) : Reach TKind.base d →
      Reach TKind.base ⟨d.tex, d.ltex, f⟩
  | baseTex (h : Nat) (d : TD) : Reach TKind.base d →
      Reach TKind.base ⟨TexVal.handle h, d.ltex, d.flag⟩
  | baseLtex (h : Nat) (d : TD) : Reach TKind.base d →
      Reach TKind.base ⟨d.tex, TexVal.handle h, d.flag⟩
  | subtileData (sidx midx flags : Nat) (oldstyle spec : Bool) (d : TD) :
      Reach TKind.pool d →
      Reach TKind.pool
        ⟨TexVal.idx sidx,
         if spec ∧ midx ≠ NOTILE then TexVal.idx midx else d.ltex,
         ((if spec then flags else 1) ||| 0x80) |||
           (if oldstyle then 0x40 else 0)⟩
  | subtileTextures (nt nm : Nat) (tb mb : Nat → Option Nat) (d : TD) :
      Reach TKind.pool d →
      Reach TKind.pool
        ⟨resolveIdx (texWord d.tex) nt tb, resolveIdx (texWord d.ltex) nm mb,
         d.flag &&& 0xFFFFFF7F⟩
  | asyncApply (texr maskr : Option Nat) (d : TD) :
      Reach TKind.pool d →
      Reach TKind.pool ⟨optTex texr, optTex maskr, d.flag &&& 0x3F⟩

theorem resolveIdx_ne_idx (w n : Nat) (buf : Nat → Option Nat) (m : Nat) :
    resolveIdx w n buf ≠ TexVal.idx m := by
  unfold resolveIdx
  split
  · exact fun h => nomatch h
  · split
    · cases buf w <;> simp
    · exact fun h => nomatch h

theorem optTex_ne_idx (o : Option Nat) (m : Nat) : optTex o ≠ TexVal.idx m := by
  cases o <;> simp [optTex]

theorem or_0x80_and_0x80 (a c : Nat) : ((a ||| 0x80) ||| c) &&& 0x80 ≠ 0 := by
  intro h
  have hb : (((a ||| 0x80) ||| c) &&& 0x80).testBit 7 = false := by
    simp [h]
  simp [Nat.testBit_and, Nat.testBit_or] at hb
  have : (0x80 : Nat).testBit 7 = true := by decide
  simp [this] at hb

/-- Base-array descriptors never hold a numeric index in `tex`: the only
writes to a base tile's `tex` are loaded texture pointers. -/
theorem base_tex_not_idx (d : TD) (h : Reach TKind.base d) :
    ∀ m, d.tex ≠ TexVal.idx m := by
  generalize hk : TKind.base = k at h
  induction h with
  | create k => intro m hm; exact nomatch hm
  | lmaskFlag f d _ ih => exact ih hk
  | baseTex h d _ _ => intro m hm; exact nomatch hm
  | baseLtex h d _ ih => exact ih hk
  | subtileData _ _ _ _ _ _ _ _ => exact nomatch hk
  | subtileTextures _ _ _ _ _ _ _ => exact nomatch hk
  | asyncApply _ _ _ _ _ => exact nomatch hk

/-- C1.  In every state of a tile descriptor that the render thread can
observe, if the not-loaded bit 0x80 is clear then `tex` is a real texture
handle or NULL, never an unresolved numeric archive index.  The induction
cases record the two halves of the claim: the only operation that stores a
numeric index (`AddSubtileData`) also sets bit 0x80, and the two operations
that clear bit 0x80 (`AddSubtileTextures` and the loader publication in
`LoadTile_ThreadProc`) replace `tex` by a handle or NULL in the same
mutex-protected step. -/
theorem tiledesc_loaded_tex_never_index (k : TKind) (d : TD)
    (h : Reach k d) (hflag : d.flag &&& 0x80 = 0) :
    ∀ m, d.tex ≠ TexVal.idx m := by
  induction h with
  | create k => intro m hm; exact nomatch hm
  | lmaskFlag f d hd _ => exact base_tex_not_idx d hd
  | baseTex h d _ _ => intro m hm; exact nomatch hm
  | baseLtex h d hd _ => exact base_tex_not_idx d hd
  | subtileData sidx midx flags oldstyle spec d _ _ =>
      exact absurd hflag (or_0x80_and_0x80 _ _)
  | subtileTextures nt nm tb mb d _ _ =>
      exact fun m => resolveIdx_ne_idx _ _ _ m
  | asyncApply texr maskr d _ _ =>
      exact fun m => optTex_ne_idx _ m

theorem tiledesc_loaded_tex_never_index_witness :
    (TD.mk TexVal.noTex TexVal.noTex 0).flag &&& 0x80 = 0 ∧
      (TD.mk TexVal.noTex TexVal.noTex 0).tex ≠ TexVal.idx 0 :=
  ⟨by decide,
   tiledesc_loaded_tex_never_index TKind.pool _ (Reach.create TKind.pool)
     (by decide) 0⟩

/-!
The quadtree of `TILEDESC` nodes: each node has the loading-protocol fields,
its pool slot index `ofs`, and four optional children `subtile[0..3]`.
`OTile` embeds the nullable child pointer.
-/

mutual
inductive Tile : Type where
  | mk (tex ltex : TexVal) (flag ofs : Nat) (c0 c1 c2 c3 : OTile) : Tile
inductive OTile : Type where
  | none : OTile
  | some (t : Tile) : OTile
end

mutual
/-- `TileBuffer::DeleteTile` lines 1301-1320.  Recursively tries to delete the
four children; `del` stays true only if every present child was deleted.
The node itself is deleted (slot freed) iff the raw word in `tex` is NULL
and `del` holds.  Returns the deletion verdict and the list of freed `ofs`
slots (children first, then the node itself). -/
def deleteTile : Tile → Bool × List Nat
  | Tile.mk tex _ _ ofs c0 c1 c2 c3 =>
    let r0 := delOpt c0
    let r1 := delOpt c1
    let r2 := delOpt c2
    let r3 := delOpt c3
    let del := r0.1 && r1.1 && r2.1 && r3.1
    let freed := r0.2 ++ r1.2 ++ r2.2 ++ r3.2
    if texWord tex != 0 || !del then (false, freed)
    else (true, freed ++ [ofs])

/-- One iteration of the `for` loop in `DeleteTile`: a NULL child pointer is
skipped (counts as deleted), a present child is recursively deleted. -/
def delOpt : OTile → Bool × List Nat
  | OTile.none => (true, [])
  | OTile.some t => deleteTile t
end

mutual
/-- Every node of the subtree has a NULL raw word in `tex`. -/
def allTexZero : Tile → Bool
  | Tile.mk tex _ _ _ c0 c1 c2 c3 =>
    (texWord tex == 0) && allTexZeroO c0 && allTexZeroO c1 &&
      allTexZeroO c2 && allTexZeroO c3

def allTexZeroO : OTile → Bool
  | OTile.none => true
  | OTile.some t => allTexZero t
end

mutual
/-- Some node of the subtree holds an actually loaded texture in `tex`. -/
def hasLoadedTex : Tile → Bool
  | Tile.mk tex _ _ _ c0 c1 c2 c3 =>
    (match tex with | TexVal.handle _ => true | _ => false) ||
      hasLoadedTexO c0 || hasLoadedTexO c1 || hasLoadedTexO c2 ||
      hasLoadedTexO c3

def hasLoadedTexO : OTile → Bool
  | OTile.none => false
  | OTile.some t => hasLoadedTex t
end

mutual
/-- All pool slot indices of the subtree, children first. -/
def allOfs : Tile → List Nat
  | Tile.mk _ _ _ ofs c0 c1 c2 c3 =>
    allOfsO c0 ++ allOfsO c1 ++ allOfsO c2 ++ allOfsO c3 ++ [ofs]

def allOfsO : OTile → List Nat
  | OTile.none => []
  | OTile.some t => allOfs t
end

mutual
/-- Rewrite every `ltex` field of the subtree (used to state that
`DeleteTile` never inspects `ltex`). -/
def mapLtex (f : TexVal → TexVal) : Tile → Tile
  | Tile.mk tex ltex flag ofs c0 c1 c2 c3 =>
    Tile.mk tex (f ltex) flag ofs (mapLtexO f c0) (mapLtexO f c1)
      (mapLtexO f c2) (mapLtexO f c3)

def mapLtexO (f : TexVal → TexVal) : OTile → OTile
  | OTile.none => OTile.none
  | OTile.some t => OTile.some (mapLtex f t)
end

mutual
theorem deleteTile_fst_eq_allTexZero (t : Tile) :
    (deleteTile t).1 = allTexZero t := by
  match t with
  | Tile.mk tex ltex flag ofs c0 c1 c2 c3 =>
    have h0 := delOpt_fst_eq_allTexZeroO c0
    have h1 := delOpt_fst_eq_allTexZeroO c1
    have h2 := delOpt_fst_eq_allTexZeroO c2
    have h3 := delOpt_fst_eq_allTexZeroO c3
    simp only [deleteTile, allTexZero, h0, h1, h2, h3, bne]
    cases texWord tex == 0 <;> cases allTexZeroO c0 <;>
      cases allTexZeroO c1 <;> cases allTexZeroO c2 <;>
      cases allTexZeroO c3 <;> simp

theorem delOpt_fst_eq_allTexZeroO (o : OTile) :
    (delOpt o).1 = allTexZeroO o := by
  match o with
  | OTile.none => rfl
  | OTile.some t => exact deleteTile_fst_eq_allTexZero t
end

mutual
theorem deleteTile_snd_of_deleted (t : Tile) :
    allTexZero t = true → (deleteTile t).2 = allOfs t := by
  match t with
  | Tile.mk tex ltex flag ofs c0 c1 c2 c3 =>
    intro h
    simp only [allTexZero, Bool.and_eq_true, beq_iff_eq] at h
    obtain ⟨⟨⟨⟨htz, h0z⟩, h1z⟩, h2z⟩, h3z⟩ := h
    have hc : (texWord tex != 0 ||
        !((delOpt c0).1 && (delOpt c1).1 && (delOpt c2).1 && (delOpt c3).1))
        = false := by
      simp [htz, delOpt_fst_eq_allTexZeroO, h0z, h1z, h2z, h3z]
    simp only [deleteTile, allOfs, hc, Bool.false_eq_true, if_false]
    simp [delOpt_snd_of_deletedO c0 h0z, delOpt_snd_of_deletedO c1 h1z,
      delOpt_snd_of_deletedO c2 h2z, delOpt_snd_of_deletedO c3 h3z]

theorem delOpt_snd_of_deletedO (o : OTile) :
    allTexZeroO o = true → (delOpt o).2 = allOfsO o := by
  match o with
  | OTile.none => intro _; rfl
  | OTile.some t => exact deleteTile_snd_of_deleted t
end

mutual
theorem deleteTile_mapLtex (f : TexVal → TexVal) (t : Tile) :
    deleteTile (mapLtex f t) = deleteTile t := by
  match t with
  | Tile.mk tex ltex flag ofs c0 c1 c2 c3 =>
    simp only [mapLtex, deleteTile, delOpt_mapLtexO f c0, delOpt_mapLtexO f c1,
      delOpt_mapLtexO f c2, delOpt_mapLtexO f c3]

theorem delOpt_mapLtexO (f : TexVal → TexVal) (o : OTile) :
    delOpt (mapLtexO f o) = delOpt o := by
  match o with
  | OTile.none => rfl
  | OTile.some t => exact deleteTile_mapLtex f t
end

/-- C2, counterexample to the claim as stated: a leaf descriptor whose `tex`
still holds the unresolved `NOTILE` sentinel index (as
`TileManager::AddSubtileData` stores it) has no loaded texture anywhere in
its subtree, yet `DeleteTile` refuses to delete it, because the raw word
`NOTILE = 0xFFFFFFFF` is not the NULL pointer. -/
theorem deleteTile_notile_counterexample :
    ¬ ((deleteTile (Tile.mk (TexVal.idx NOTILE) TexVal.noTex 0x80 0
          OTile.none OTile.none OTile.none OTile.none)).1 = true ↔
        hasLoadedTex (Tile.mk (TexVal.idx NOTILE) TexVal.noTex 0x80 0
          OTile.none OTile.none OTile.none OTile.none) = false) := by
  decide

/-- C2, amended.  `DeleteTile(d)` returns true iff the raw `tex` word of every
node in the subtree rooted at `d` is NULL (0); when it returns true it has
freed `d`'s slot and every descendant slot.  A nonzero unresolved numeric
index, and in particular the `NOTILE` sentinel, blocks deletion just as a
loaded texture pointer does. -/
theorem deleteTile_true_iff_all_null (t : Tile) :
    ((deleteTile t).1 = true ↔ allTexZero t = true) ∧
      ((deleteTile t).1 = true → (deleteTile t).2 = allOfs t) :=
  ⟨by rw [deleteTile_fst_eq_allTexZero],
   fun h =>
     deleteTile_snd_of_deleted t ((deleteTile_fst_eq_allTexZero t).symm.trans h)⟩

theorem deleteTile_true_iff_all_null_witness :
    (deleteTile (Tile.mk TexVal.noTex TexVal.noTex 0x80 5
        (OTile.some (Tile.mk TexVal.noTex TexVal.noTex 0 9
          OTile.none OTile.none OTile.none OTile.none))
        OTile.none OTile.none OTile.none)).1 = true ∧
      (deleteTile (Tile.mk TexVal.noTex TexVal.noTex 0x80 5
        (OTile.some (Tile.mk TexVal.noTex TexVal.noTex 0 9
          OTile.none OTile.none OTile.none OTile.none))
        OTile.none OTile.none OTile.none)).2 = [9, 5] :=
  ⟨(deleteTile_true_iff_all_null _).1.mpr (by decide),
   ((deleteTile_true_iff_all_null _).2
      ((deleteTile_true_iff_all_null _).1.mpr (by decide))).trans (by decide)⟩

/-- C10.  `DeleteTile` never inspects `ltex`: its whole result (verdict and
freed slots) is invariant under rewriting every `ltex` in the subtree, and
whenever every node's raw `tex` word is NULL the subtree is deleted, even
if some node's `ltex` still holds a loaded mask texture; the state
`tex = NULL, ltex = loaded mask, flag & 0xC0 = 0` is reachable via
`LoadTile_ThreadProc` when the surface read fails but the mask read
succeeds. -/
theorem deleteTile_ignores_ltex :
    (∀ (f : TexVal → TexVal) (t : Tile),
        deleteTile (mapLtex f t) = deleteTile t) ∧
      (∀ t : Tile, allTexZero t = true → (deleteTile t).1 = true) ∧
      Reach TKind.pool ⟨TexVal.noTex, TexVal.handle 7, 0⟩ :=
  ⟨fun f t => deleteTile_mapLtex f t,
   fun t h => by rw [deleteTile_fst_eq_allTexZero]; exact h,
   by
     have h := Reach.asyncApply Option.none (some 7) _
       (Reach.create TKind.pool)
     simpa [optTex] using h⟩

theorem deleteTile_ignores_ltex_witness :
    (deleteTile (mapLtex (fun _ => TexVal.handle 3)
        (Tile.mk TexVal.noTex TexVal.noTex 0 5
          OTile.none OTile.none OTile.none OTile.none)) =
      deleteTile (Tile.mk TexVal.noTex TexVal.noTex 0 5
          OTile.none OTile.none OTile.none OTile.none)) ∧
      (deleteTile (Tile.mk TexVal.noTex (TexVal.handle 3) 0 5
          OTile.none OTile.none OTile.none OTile.none)).1 = true :=
  ⟨deleteTile_ignores_ltex.1 (fun _ => TexVal.handle 3) _,
   deleteTile_ignores_ltex.2.1 _ (by decide)⟩

/-!
The descriptor pool of `TileBuffer` (`AddTile`) and the per-child step of
`TileManager::ProcessTile`'s descent loop (lines 603-635).
-/

/-- One `TILEDESC` as the descent step sees it: the loading-protocol fields
plus the pool slot index `ofs`. -/
structure TDesc where
  tex : TexVal
  ltex : TexVal
  flag : Nat
  ofs : Nat
deriving DecidableEq, Repr

/-- The `TileBuffer` slot pool: `buf` (vector of optional descriptor slots),
`nused`, and the rotating scan hint `last`. -/
structure Pool where
  buf : List (Option TDesc)
  nused : Nat
  last : Nat
deriving DecidableEq, Repr

/-- The slot-scan loop of `TileBuffer::AddTile` lines 1271-1277: starting at
`last`, find the first free slot `(i+last) % nbuf`; if none is found the
`/* Problems! */` path leaves `last` unchanged. -/
def findFree (buf : List (Option TDesc)) (last : Nat) : Nat :=
  match (List.range buf.length).find?
      (fun i => (buf.getD ((i + last) % buf.length) Option.none).isNone) with
  | some i => (i + last) % buf.length
  | none => last

/-- `TileBuffer::AddTile` lines 1254-1286: allocate a zeroed (`memset`)
descriptor; if the pool is full, grow it by 16 slots and place the
descriptor at the old size, else place it in the first free slot found
from `last`; record the slot in `ofs` and bump `nused`. -/
def addTile (p : Pool) : Pool × TDesc :=
  if p.nused = p.buf.length then
    let lastg := p.nused
    let td : TDesc := ⟨TexVal.noTex, TexVal.noTex, 0, lastg⟩
    (⟨(p.buf ++ List.replicate 16 Option.none).set lastg (Option.some td),
      p.nused + 1, lastg⟩, td)
  else
    let lasts := findFree p.buf p.last
    let td : TDesc := ⟨TexVal.noTex, TexVal.noTex, 0, lasts⟩
    (⟨p.buf.set lasts (Option.some td), p.nused + 1, lasts⟩, td)

/-- `TEXCRDRANGE` texture coordinate sub-rectangle (float fields, embedded as
rationals: the traversal only ever halves and offsets dyadic values). -/
structure TEXCRDRANGE where
  tumin : ℚ
  tumax : ℚ
  tvmin : ℚ
  tvmax : ℚ
deriving DecidableEq, Repr

/-- `static TEXCRDRANGE fullrange = {0,1,0,1}` of `ProcessTile`. -/
def fullrange : TEXCRDRANGE := ⟨0, 1, 0, 1⟩

/-- The sub-rectangle computed for child `(i, j)` in `ProcessTile`'s descent
loop: `du`/`dv` are half the parent extents, the `v` band is `1-i`, the `u`
band is `j`. -/
def subrangeOf (range : TEXCRDRANGE) (i j : ℤ) : TEXCRDRANGE :=
  let du := (range.tumax - range.tumin) / 2
  let dv := (range.tvmax - range.tvmin) / 2
  ⟨range.tumin + (j : ℚ) * du, range.tumin + (j : ℚ) * du + du,
   range.tvmin + ((1 - i : ℤ) : ℚ) * dv,
   range.tvmin + ((1 - i : ℤ) : ℚ) * dv + dv⟩

/-- The argument block of a recursive `ProcessTile` call: current UV range,
textures and flag, and backup UV range, textures and flag. -/
structure PTCall where
  range : TEXCRDRANGE
  tex : TexVal
  ltex : TexVal
  flag : Nat
  bkp_range : TEXCRDRANGE
  bkp_tex : TexVal
  bkp_ltex : TexVal
  bkp_flag : Nat
deriving DecidableEq, Repr

/-- Result of one child iteration of the descent loop. -/
structure ChildStep where
  pool : Pool
  sub : TDesc
  created : Bool
  loadReq : Bool
  call : PTCall
deriving DecidableEq, Repr

/-- One iteration (child `(i, j)`) of the descent loop in
`TileManager::ProcessTile` lines 603-635, for the tile descriptor with flag
`tileFlag`, child pointer `sub`, and current arguments
`range`/`tex`/`ltex`/`flag`:

* missing child: allocate it with `AddTile` (`isfull = false`);
* child present but not loaded (`flag & 0x80`): request an async load when
  the parent descriptor is loaded (`isfull = false`);
* otherwise `isfull = (subtile->tex != NULL)`;
* when full, recurse with the child's full `[0,1]^2` range and its own
  textures as current, and the parent sub-rectangle and textures as backup;
  when not full, recurse with the parent sub-rectangle and textures as both
  current and backup. -/
def processChild (p : Pool) (tileFlag : Nat) (sub : Option TDesc)
    (range : TEXCRDRANGE) (tex ltex : TexVal) (flag : Nat) (i j : ℤ) :
    ChildStep :=
  let subrange := subrangeOf range i j
  match sub with
  | Option.none =>
    let r := addTile p
    ⟨r.1, r.2, true, false, ⟨subrange, tex, ltex, flag, subrange, tex, ltex, flag⟩⟩
  | Option.some st =>
    if st.flag &&& 0x80 ≠ 0 then
      ⟨p, st, false, tileFlag &&& 0x80 == 0,
       ⟨subrange, tex, ltex, flag, subrange, tex, ltex, flag⟩⟩
    else if texWord st.tex ≠ 0 then
      ⟨p, st, false, false,
       ⟨fullrange, st.tex, st.ltex, st.flag, subrange, tex, ltex, flag⟩⟩
    else
      ⟨p, st, false, false,
       ⟨subrange, tex, ltex, flag, subrange, tex, ltex, flag⟩⟩

/-- C3, counterexample to the claim as stated: for a child that already has a
loaded texture (`handle 5`), the recursive call takes the child's own
textures as the CURRENT set, but the BACKUP set is the parent's textures
(`handle 9`) with the parent's sub-rectangle, not the child's own again. -/
theorem processTile_backup_args_counterexample :
    ((processChild ⟨[], 0, 0⟩ 0
        (Option.some ⟨TexVal.handle 5, TexVal.noTex, 0, 3⟩) fullrange
        (TexVal.handle 9) TexVal.noTex 1 0 0).call.tex = TexVal.handle 5) ∧
      ((processChild ⟨[], 0, 0⟩ 0
        (Option.some ⟨TexVal.handle 5, TexVal.noTex, 0, 3⟩) fullrange
        (TexVal.handle 9) TexVal.noTex 1 0 0).call.bkp_tex ≠
          TexVal.handle 5) := by
  constructor <;> decide

/-- C3, amended.  In `ProcessTile`'s descent step, a child subtile that exists,
is marked loaded, and has a nonzero `tex` word is recursed into with its
own full UV range `[0,1]^2` and its own textures and flag as the CURRENT
set, while the BACKUP set is the parent's sub-rectangle together with the
parent's textures and flag. -/
theorem processTile_descend_loaded_child (p : Pool) (tileFlag : Nat)
    (st : TDesc) (range : TEXCRDRANGE) (tex ltex : TexVal) (flag : Nat)
    (i j : ℤ) (h80 : st.flag &&& 0x80 = 0) (htex : texWord st.tex ≠ 0) :
    (processChild p tileFlag (Option.some st) range tex ltex flag i j).call =
      ⟨fullrange, st.tex, st.ltex, st.flag,
       subrangeOf range i j, tex, ltex, flag⟩ := by
  simp [processChild, h80, htex]

theorem processTile_descend_loaded_child_witness :
    ((⟨TexVal.handle 5, TexVal.noTex, 0, 3⟩ : TDesc).flag &&& 0x80 = 0) ∧
      texWord (⟨TexVal.handle 5, TexVal.noTex, 0, 3⟩ : TDesc).tex ≠ 0 ∧
      (processChild ⟨[], 0, 0⟩ 0
          (Option.some ⟨TexVal.handle 5, TexVal.noTex, 0, 3⟩) fullrange
          (TexVal.handle 9) TexVal.noTex 1 0 0).call =
        ⟨fullrange, TexVal.handle 5, TexVal.noTex, 0,
         subrangeOf fullrange 0 0, TexVal.handle 9, TexVal.noTex, 1⟩ :=
  ⟨by decide, by decide,
   processTile_descend_loaded_child ⟨[], 0, 0⟩ 0 _ fullrange
     (TexVal.handle 9) TexVal.noTex 1 0 0 (by decide) (by decide)⟩

theorem findFree_spec (buf : List (Option TDesc)) (last : Nat)
    (hne : 0 < buf.length)
    (hfree : ∃ k, k < buf.length ∧ buf.getD k Option.none = Option.none) :
    findFree buf last < buf.length ∧
      buf.getD (findFree buf last) Option.none = Option.none := by
  obtain ⟨k, hk, hkfree⟩ := hfree
  unfold findFree
  cases hf : (List.range buf.length).find?
      (fun i => (buf.getD ((i + last) % buf.length) Option.none).isNone) with
  | none =>
      exfalso
      have hall := List.find?_eq_none.mp hf
      have hL : last % buf.length < buf.length := Nat.mod_lt _ hne
      have hi : (buf.length + k - last % buf.length) % buf.length ∈
          List.range buf.length := List.mem_range.mpr (Nat.mod_lt _ hne)
      have harith : ((buf.length + k - last % buf.length) % buf.length + last)
          % buf.length = k := by
        conv_lhs => rw [Nat.add_mod, Nat.mod_mod_of_dvd _ (dvd_refl _)]
        rw [Nat.mod_add_mod, Nat.sub_add_cancel (by omega), Nat.add_mod_left,
          Nat.mod_eq_of_lt hk]
      have hcontra := hall _ hi
      rw [harith] at hcontra
      rw [List.getD_eq_getElem?_getD] at hkfree
      simp [hkfree] at hcontra
  | some i =>
      have hp := List.find?_some hf
      refine ⟨Nat.mod_lt _ hne, ?_⟩
      simpa [Option.isNone_iff_eq_none] using hp

theorem addTile_spec (p : Pool)
    (hp : p.nused = p.buf.length ∨
      ∃ k, k < p.buf.length ∧ p.buf.getD k Option.none = Option.none) :
    (addTile p).2.tex = TexVal.noTex ∧ (addTile p).2.ltex = TexVal.noTex ∧
      (addTile p).2.flag = 0 ∧
      (addTile p).2.ofs < (addTile p).1.buf.length ∧
      p.buf.getD (addTile p).2.ofs Option.none = Option.none ∧
      (addTile p).1.buf.getD (addTile p).2.ofs Option.none =
        Option.some (addTile p).2 ∧
      (addTile p).1.nused = p.nused + 1 := by
  by_cases hfull : p.nused = p.buf.length
  · rw [addTile]
    simp only [if_pos hfull]
    refine ⟨by trivial, by trivial, by trivial, ?_, ?_, ?_, by trivial⟩
    · rw [List.length_set, List.length_append, List.length_replicate]
      omega
    · exact List.getD_eq_default _ _ (by omega)
    · rw [List.getD_eq_getElem?_getD,
        List.getElem?_set_eq_of_lt _ (by simp; omega)]
      rfl
  · have hfree := hp.resolve_left hfull
    have hne : 0 < p.buf.length := by
      obtain ⟨k, hk, _⟩ := hfree; omega
    obtain ⟨hlt, hslot⟩ := findFree_spec p.buf p.last hne hfree
    rw [addTile]
    simp only [if_neg hfull]
    refine ⟨by trivial, by trivial, by trivial, ?_, hslot, ?_, by trivial⟩
    · rw [List.length_set]; exact hlt
    · rw [List.getD_eq_getElem?_getD, List.getElem?_set_eq_of_lt _ hlt]
      rfl

/-- C4, counterexample to the claim as stated: when `ProcessTile`'s descent
finds a missing child it calls `AddTile`, which `memset`s the descriptor to
zero; nothing sets the not-loaded bit, so the created child's flag is 0,
not 0x80. -/
theorem processTile_created_child_flag_counterexample :
    (processChild ⟨[], 0, 0⟩ 0 Option.none fullrange TexVal.noTex
        TexVal.noTex 0 0 0).sub.flag ≠ 0x80 := by
  decide

/-- C4, amended.  In `ProcessTile`'s descent step, a missing child descriptor
is created through `TileBuffer::AddTile` in a previously empty slot and the
descent continues with the parent's textures; the created descriptor is
fully zeroed -- `flag = 0` (the not-loaded bit 0x80 is NOT set at
creation), `tex = ltex = NULL` -- and its `ofs` field records the slot
index at which the pool stores it, with `nused` incremented. -/
theorem processTile_missing_child_created_zeroed (p : Pool) (tileFlag : Nat)
    (range : TEXCRDRANGE) (tex ltex : TexVal) (flag : Nat) (i j : ℤ)
    (hp : p.nused = p.buf.length ∨
      ∃ k, k < p.buf.length ∧ p.buf.getD k Option.none = Option.none) :
    processChild p tileFlag Option.none range tex ltex flag i j =
      ⟨(addTile p).1, (addTile p).2, true, false,
       ⟨subrangeOf range i j, tex, ltex, flag,
        subrangeOf range i j, tex, ltex, flag⟩⟩ ∧
      (addTile p).2.flag = 0 ∧ (addTile p).2.tex = TexVal.noTex ∧
      (addTile p).2.ltex = TexVal.noTex ∧
      (addTile p).2.ofs < (addTile p).1.buf.length ∧
      p.buf.getD (addTile p).2.ofs Option.none = Option.none ∧
      (addTile p).1.buf.getD (addTile p).2.ofs Option.none =
        Option.some (addTile p).2 ∧
      (addTile p).1.nused = p.nused + 1 := by
  have hs := addTile_spec p hp
  exact ⟨rfl, hs.2.2.1, hs.1, hs.2.1, hs.2.2.2.1, hs.2.2.2.2.1,
    hs.2.2.2.2.2.1, hs.2.2.2.2.2.2⟩

theorem processTile_missing_child_created_zeroed_witness :
    processChild ⟨[], 0, 0⟩ 7 Option.none fullrange TexVal.noTex
        TexVal.noTex 9 0 0 =
      ⟨(addTile ⟨[], 0, 0⟩).1, (addTile ⟨[], 0, 0⟩).2, true, false,
       ⟨subrangeOf fullrange 0 0, TexVal.noTex, TexVal.noTex, 9,
        subrangeOf fullrange 0 0, TexVal.noTex, TexVal.noTex, 9⟩⟩ ∧
      (addTile ⟨[], 0, 0⟩).2.flag = 0 ∧
      (addTile ⟨[], 0, 0⟩).2.tex = TexVal.noTex ∧
      (addTile ⟨[], 0, 0⟩).2.ltex = TexVal.noTex ∧
      (addTile ⟨[], 0, 0⟩).2.ofs < (addTile ⟨[], 0, 0⟩).1.buf.length ∧
      (⟨[], 0, 0⟩ : Pool).buf.getD (addTile ⟨[], 0, 0⟩).2.ofs Option.none =
        Option.none ∧
      (addTile ⟨[], 0, 0⟩).1.buf.getD (addTile ⟨[], 0, 0⟩).2.ofs Option.none =
        Option.some (addTile ⟨[], 0, 0⟩).2 ∧
      (addTile ⟨[], 0, 0⟩).1.nused = (⟨[], 0, 0⟩ : Pool).nused + 1 :=
  processTile_missing_child_created_zeroed ⟨[], 0, 0⟩ 7 fullrange
    TexVal.noTex TexVal.noTex 9 0 0 (Or.inl rfl)

/-!
The texture request queue of `TileBuffer` (`LoadTileAsync`, lines 1324-1347).
`MAXQUEUE` is declared in the header (not in this file); the model carries
the capacity in the state.  A queued request is `{name, td}`, with the
descriptor identified by its address (a number).
-/

/-- `QUEUEDESC { const char *name; TILEDESC *td; }`. -/
structure QDesc where
  name : String
  td : Nat
deriving DecidableEq, Repr

/-- Queue state of `TileBuffer`: capacity `maxq` (`MAXQUEUE`), the fixed
backing array `loadqueue` of length `maxq`, the element count `nqueue`,
and the ring indices `queue_in` (tail) and `queue_out` (head). -/
structure TBQueue where
  maxq : Nat
  loadqueue : List QDesc
  nqueue : Nat
  queue_in : Nat
  queue_out : Nat
deriving DecidableEq, Repr

/-- The acceptance test of `TileBuffer::LoadTileAsync`: false when the queue
holds `MAXQUEUE` entries, else false when the scan over the `nqueue` live
entries starting at `queue_out` finds a request with the same descriptor. -/
def loadTileAsyncOk (tile : Nat) (s : TBQueue) : Bool :=
  if s.nqueue = s.maxq then false
  else !((List.range s.nqueue).any
    (fun i => (s.loadqueue.getD ((i + s.queue_out) % s.maxq) ⟨"", 0⟩).td
      == tile))

/-- `TileBuffer::LoadTileAsync` lines 1324-1347: reject when full or when the
request is already queued; on acceptance write `{name, tile}` at
`queue_in`, bump `nqueue` and advance `queue_in`.  Returns the `ok` flag
and the new state (unchanged on rejection). -/
def loadTileAsync (name : String) (tile : Nat) (s : TBQueue) :
    Bool × TBQueue :=
  if loadTileAsyncOk tile s then
    (true, ⟨s.maxq, s.loadqueue.set s.queue_in ⟨name, tile⟩, s.nqueue + 1,
      (s.queue_in + 1) % s.maxq, s.queue_out⟩)
  else (false, s)

/-- The rejection condition of `LoadTileAsync`: queue full, or some live
entry already refers to the same descriptor. -/
def rejectCond (tile : Nat) (s : TBQueue) : Prop :=
  s.nqueue = s.maxq ∨
    ∃ i, i < s.nqueue ∧
      (s.loadqueue.getD ((i + s.queue_out) % s.maxq) ⟨"", 0⟩).td = tile

theorem loadTileAsyncOk_false_iff (tile : Nat) (s : TBQueue) :
    loadTileAsyncOk tile s = false ↔ rejectCond tile s := by
  unfold loadTileAsyncOk rejectCond
  by_cases hfull : s.nqueue = s.maxq
  · simp [hfull]
  · rw [if_neg hfull]
    simp [hfull, List.any_eq_true, List.mem_range]

instance (tile : Nat) (s : TBQueue) : Decidable (rejectCond tile s) :=
  decidable_of_iff _ (loadTileAsyncOk_false_iff tile s)

/-- C5.  `LoadTileAsync(name, tile)` returns false and leaves the whole queue
state (count, both ring indices, and every stored entry) unchanged exactly
when the queue already holds `MAXQUEUE` entries or some live entry already
refers to the same descriptor; in every other case it returns true, writes
the request at the tail slot `queue_in`, increments `nqueue` and advances
`queue_in`, leaving `queue_out` and all other entries in place. -/
theorem loadTileAsync_reject_iff (name : String) (tile : Nat) (s : TBQueue) :
    ((loadTileAsync name tile s).1 = false ∧
        (loadTileAsync name tile s).2 = s ↔ rejectCond tile s) ∧
      (¬ rejectCond tile s →
        (loadTileAsync name tile s).1 = true ∧
          (loadTileAsync name tile s).2 =
            ⟨s.maxq, s.loadqueue.set s.queue_in ⟨name, tile⟩, s.nqueue + 1,
              (s.queue_in + 1) % s.maxq, s.queue_out⟩) := by
  by_cases hr : rejectCond tile s
  · have hv := (loadTileAsyncOk_false_iff tile s).mpr hr
    rw [loadTileAsync, hv]
    simp only [Bool.false_eq_true, if_false]
    exact ⟨by simp [hr], fun h => absurd hr h⟩
  · have hv : loadTileAsyncOk tile s = true := by
      cases hvv : loadTileAsyncOk tile s
      · exact absurd ((loadTileAsyncOk_false_iff tile s).mp hvv) hr
      · rfl
    rw [loadTileAsync, hv]
    simp only [if_true]
    exact ⟨by simp [hr], fun _ => ⟨by trivial, by trivial⟩⟩

theorem loadTileAsync_reject_iff_witness :
    (¬ rejectCond 5 ⟨2, [⟨"Earth", 1⟩, ⟨"", 0⟩], 1, 1, 0⟩) ∧
      (loadTileAsync "Earth" 5 ⟨2, [⟨"Earth", 1⟩, ⟨"", 0⟩], 1, 1, 0⟩).1 =
        true ∧
      (loadTileAsync "Earth" 5 ⟨2, [⟨"Earth", 1⟩, ⟨"", 0⟩], 1, 1, 0⟩).2 =
        ⟨2, [⟨"Earth", 1⟩, ⟨"Earth", 5⟩], 2, 0, 0⟩ :=
  ⟨by decide,
   ((loadTileAsync_reject_iff "Earth" 5 _).2 (by decide)).1,
   (((loadTileAsync_reject_iff "Earth" 5 _).2 (by decide)).2).trans (by decide)⟩

/-!
The per-frame resolution rate limit of `TileManager::Render` lines 484-490.
Float arithmetic is embedded over the rationals: the loop only doubles the
limit, and the comparisons below are the same on any ordered field.
-/

/-- `int SURF_MAX_PATCHLEVEL = 14` (the maximum supported patch level). -/
def SURF_MAX_PATCHLEVEL : Nat := 14

/-- `static double limitstep0 = 5.12 * pow(2.0, -SURF_MAX_PATCHLEVEL)`. -/
def limitstep0 : ℚ := (5.12 : ℚ) * ((2 : ℚ) ^ SURF_MAX_PATCHLEVEL)⁻¹

/-- The loop `for (limitstep = limitstep0; cstep > limitstep && maxlevel > 5;
limitstep *= 2.0) maxlevel--;` with `maxlevel` as the structural fuel:
`rateLoop cstep m l` is the final `maxlevel` when the loop is entered with
`maxlevel = m` and `limitstep = l`. -/
def rateLoop (cstep : ℚ) : Nat → ℚ → Nat
  | 0, _ => 0
  | m + 1, l => if cstep > l ∧ m + 1 > 5 then rateLoop cstep m (2 * l)
      else m + 1

/-- The effective `maxlevel` computed by `Render` as a function of `cstep`. -/
def maxlevelOf (cstep : ℚ) : Nat := rateLoop cstep SURF_MAX_PATCHLEVEL limitstep0

/-- `level = min (level, maxlevel)` at line 490. -/
def rateLimitedLevel (level : ℤ) (cstep : ℚ) : ℤ :=
  min level (maxlevelOf cstep)

theorem rateLoop_le (cstep : ℚ) (m : Nat) (l : ℚ) :
    rateLoop cstep m l ≤ m := by
  induction m generalizing l with
  | zero => exact Nat.le_refl 0
  | succ m ih =>
      rw [rateLoop]
      split
      · exact Nat.le_succ_of_le (ih (2 * l))
      · exact Nat.le_refl _

theorem rateLoop_ge_five (cstep : ℚ) (m : Nat) (l : ℚ) (hm : 5 ≤ m) :
    5 ≤ rateLoop cstep m l := by
  induction m generalizing l with
  | zero => exact absurd hm (by decide)
  | succ m ih =>
      rw [rateLoop]
      split
      · rename_i hguard
        exact ih (2 * l) (by omega)
      · exact hm

theorem rateLoop_antitone (c1 c2 : ℚ) (hc : c1 ≤ c2) (m : Nat) (l : ℚ) :
    rateLoop c2 m l ≤ rateLoop c1 m l := by
  induction m generalizing l with
  | zero => exact Nat.le_refl 0
  | succ m ih =>
      rw [rateLoop, rateLoop]
      by_cases h2 : c2 > l ∧ m + 1 > 5
      · rw [if_pos h2]
        by_cases h1 : c1 > l ∧ m + 1 > 5
        · rw [if_pos h1]; exact ih (2 * l)
        · rw [if_neg h1]
          exact Nat.le_succ_of_le (rateLoop_le c2 m (2 * l))
      · rw [if_neg h2]
        have h1 : ¬ (c1 > l ∧ m + 1 > 5) := by
          intro h1
          exact h2 ⟨lt_of_lt_of_le h1.1 hc, h1.2⟩
        rw [if_neg h1]

/-- C6.  The rate limit of `Render` computes `maxlevel` as a pure function of
`cstep` by doubling `limitstep` from `5.12 * 2^(-14)` and decrementing
`maxlevel` from `SURF_MAX_PATCHLEVEL = 14` while `cstep > limitstep` and
`maxlevel > 5`; it is antitone in `cstep`, never drops below 5, and the
level actually rendered is `min (level, maxlevel)`. -/
theorem rateLimit_monotone_and_floor :
    (∀ c1 c2 : ℚ, c1 ≤ c2 → maxlevelOf c2 ≤ maxlevelOf c1) ∧
      (∀ c : ℚ, 5 ≤ maxlevelOf c) ∧
      (∀ (level : ℤ) (c : ℚ),
        rateLimitedLevel level c = min level (maxlevelOf c)) :=
  ⟨fun c1 c2 hc => rateLoop_antitone c1 c2 hc _ _,
   fun c => rateLoop_ge_five c _ _ (by decide),
   fun _ _ => rfl⟩

theorem rateLimit_monotone_and_floor_witness :
    maxlevelOf 1 ≤ maxlevelOf 0 ∧ 5 ≤ maxlevelOf (6 / 10) ∧
      rateLimitedLevel 12 (6 / 10) = min 12 ((maxlevelOf (6 / 10) : ℤ)) :=
  ⟨rateLimit_monotone_and_floor.1 0 1 (by norm_num),
   rateLimit_monotone_and_floor.2.1 (6 / 10),
   rateLimit_monotone_and_floor.2.2 12 (6 / 10)⟩

/-!
`TileManager::LoadPatchData` lines 126-156, pre-v1.00 (headerless) branch of
`<planet>_lmask.bin`: byte 0 is `minres`, byte 1 is `maxres`, and the
`patchidx[maxres] - patchidx[minres-1]` flag bytes follow from byte 2.  The
fill loop assigns `flag = 1` to base tiles below `patchidx[minres-1]` and
the next file flag byte (cast to BYTE) to each later base tile.
-/

/-- `int TileManager::patchidx[9] = {0, 1, 2, 3, 5, 13, 37, 137, 501}`. -/
def patchidx : List Nat := [0, 1, 2, 3, 5, 13, 37, 137, 501]

/-- The fill loop `for (i = idx = 0; i < patchidx[maxbaselvl]; i++)` of
`LoadPatchData`, with `k` iterations remaining, current tile index `i` and
running flag-array cursor `idx`: below the `patchidx[minres-1]` threshold
the flag is 1, otherwise it is the next flag value cast to a byte. -/
def lpdLoop (tflag : Nat → Nat) (thr : Nat) : Nat → Nat → Nat → List Nat
  | 0, _, _ => []
  | k + 1, i, idx =>
    if i < thr then 1 :: lpdLoop tflag thr k (i + 1) idx
    else (tflag idx) % 256 :: lpdLoop tflag thr k (i + 1) (idx + 1)

/-- The base-tile `flag` array produced by parsing an old-style `_lmask.bin`
given as its list of bytes, for `patchidx[maxbaselvl]` base tiles: the flag
values are the file bytes starting at offset 2 (after the `minres` and
`maxres` header bytes). -/
def loadPatchDataOld (file : List Nat) (maxbaselvl : Nat) : List Nat :=
  lpdLoop (fun t => file.getD (2 + t) 0)
    (patchidx.getD (file.getD 0 0 - 1) 0) (patchidx.getD maxbaselvl 0) 0 0

theorem lpdLoop_getD_zero_thr (tflag : Nat → Nat) (k : Nat) :
    ∀ i idx p, p < k →
      (lpdLoop tflag 0 k i idx).getD p 0 = tflag (idx + p) % 256 := by
  induction k with
  | zero => intro i idx p hp; omega
  | succ k ih =>
      intro i idx p hp
      rw [lpdLoop, if_neg (Nat.not_lt_zero i)]
      cases p with
      | zero => simp
      | succ p =>
          rw [List.getD_cons_succ, ih (i + 1) (idx + 1) p (by omega)]
          have harg : idx + 1 + p = idx + (p + 1) := by omega
          rw [harg]

/-- C7, counterexample to the claim as stated: for an old-style `_lmask.bin`
with `minres = 1`, `maxres = 8` and all 501 flag bytes equal to 7, the
in-memory flag of base tile 0 is 7 (the file byte at offset 2), not the
0th byte of the file (which is the `minres` header byte 1). -/
theorem loadPatchDataOld_header_counterexample :
    ¬ ((loadPatchDataOld (1 :: 8 :: List.replicate 501 7) 8).getD 0 0 =
        (1 :: 8 :: List.replicate 501 7).getD 0 0) := by
  decide

/-- C7, amended.  After `LoadPatchData` parses an old-style `_lmask.bin` whose
first two bytes give `minres = 1` and `maxres = 8`, the in-memory
`tiledesc[i].flag` equals byte `2 + i` of the file -- the i-th flag byte
after the two header bytes -- for every base tile index
`i < patchidx[8] = 501`. -/
theorem loadPatchDataOld_flags (file : List Nat)
    (hminres : file.getD 0 0 = 1) (hbytes : ∀ b ∈ file, b < 256) :
    ∀ i, i < 501 →
      (loadPatchDataOld file 8).getD i 0 = file.getD (2 + i) 0 := by
  intro i hi
  unfold loadPatchDataOld
  rw [hminres]
  have hthr : patchidx.getD (1 - 1) 0 = 0 := by decide
  have hcnt : patchidx.getD 8 0 = 501 := by decide
  rw [hthr, hcnt, lpdLoop_getD_zero_thr _ 501 0 0 i hi]
  have hlt : file.getD (2 + i) 0 < 256 := by
    by_cases h2 : 2 + i < file.length
    · rw [List.getD_eq_getElem _ _ h2]
      exact hbytes _ (List.getElem_mem h2)
    · rw [List.getD_eq_default _ _ (by omega)]
      omega
  simp only [Nat.zero_add]
  exact Nat.mod_eq_of_lt hlt

theorem loadPatchDataOld_flags_witness :
    (loadPatchDataOld (1 :: 8 :: List.replicate 501 7) 8).getD 0 0 =
      (1 :: 8 :: List.replicate 501 7).getD (2 + 0) 0 :=
  loadPatchDataOld_flags (1 :: 8 :: List.replicate 501 7) (by decide)
    (by
      intro b hb
      simp only [List.mem_cons, List.mem_replicate] at hb
      rcases hb with h | h | ⟨_, h⟩ <;> omega)
    0 (by decide)

/-!
`TileManager::LoadTileData` lines 199-221: with preloading enabled and a
version >= 1 TOC, each of the two texture-offset columns (`sidx`, then
`midx`) is converted to dense indices: build `idxlist` with `(i, ofs)`
pairs, `qsort` it ascending by `ofs` (`compare_idx`, lines 238-243), then
walk the sorted array assigning rank `i` to record `idxlist[i].idx`,
stopping at the first `NOTILE` entry.  `qsort` is an external library
routine with unspecified tie order; the model takes as hypothesis any
`ofs`-sorted permutation of `idxlist`.
-/

/-- `struct IDXLIST { DWORD idx, ofs; }`. -/
structure IDXLIST where
  idx : Nat
  ofs : Nat
deriving DecidableEq, Repr

/-- The `idxlist` array built for one column `s`: entry `i` carries
`(i, tfs[i].sidx)` (respectively `midx`). -/
def idxlistOf (s : List Nat) : List IDXLIST :=
  (List.range s.length).map (fun i => ⟨i, s.getD i 0⟩)

/-- The assignment loop `for (i = 0; i < n && idxlist[i].ofs != NOTILE; i++)
tfs[idxlist[i].idx].sidx = i;` over the sorted array. -/
def assignRanks : List Nat → List IDXLIST → Nat → List Nat
  | s, [], _ => s
  | s, e :: rest, i =>
    if e.ofs ≠ NOTILE then assignRanks (s.set e.idx i) rest (i + 1) else s

/-- Offset-to-index conversion of one column `s`, given the output `sorted`
of the external `qsort` call. -/
def convertField (s : List Nat) (sorted : List IDXLIST) : List Nat :=
  assignRanks s sorted 0

/-- The assignment loop without the `NOTILE` stop (it runs over the prefix in
which every `ofs` differs from `NOTILE`). -/
def assignAll : List Nat → List IDXLIST → Nat → List Nat
  | s, [], _ => s
  | s, e :: rest, i => assignAll (s.set e.idx i) rest (i + 1)

theorem assignRanks_eq_assignAll (l : List IDXLIST) :
    ∀ (s : List Nat) (i : Nat),
      assignRanks s l i =
        assignAll s (l.takeWhile (fun e => e.ofs != NOTILE)) i := by
  induction l with
  | nil => intro s i; rfl
  | cons e rest ih =>
      intro s i
      by_cases he : e.ofs = NOTILE
      · simp [assignRanks, List.takeWhile_cons, he, assignAll]
      · simp [assignRanks, List.takeWhile_cons, he, assignAll, ih]

theorem multiset_set_add (s : List Nat) (p v : Nat) (hp : p < s.length) :
    ((s.set p v : List Nat) : Multiset Nat) + {s.getD p 0} =
      (s : Multiset Nat) + {v} := by
  rw [List.set_eq_take_cons_drop v hp, List.getD_eq_getElem s 0 hp]
  conv_rhs => rw [← List.take_append_drop p s, List.drop_eq_getElem_cons hp]
  simp only [← Multiset.coe_add, ← Multiset.cons_coe, ← Multiset.singleton_add]
  abel

theorem assignAll_multiset (l : List IDXLIST) :
    ∀ (s : List Nat) (i : Nat),
      (∀ e ∈ l, e.idx < s.length ∧ s.getD e.idx 0 = e.ofs) →
      l.Pairwise (fun a b => a.idx ≠ b.idx) →
      ((assignAll s l i : List Nat) : Multiset Nat) +
          ((l.map (fun e => e.ofs) : List Nat) : Multiset Nat) =
        (s : Multiset Nat) +
          ((List.range' i l.length : List Nat) : Multiset Nat) := by
  induction l with
  | nil => intro s i _ _; simp [assignAll]
  | cons e rest ih =>
      intro s i hmem hpw
      obtain ⟨hidx, hofs⟩ := hmem e (List.mem_cons_self e rest)
      have hpw' := List.pairwise_cons.mp hpw
      have hrest := ih (s.set e.idx i) (i + 1)
        (by
          intro f hf
          obtain ⟨hfi, hfo⟩ := hmem f (List.mem_cons_of_mem e hf)
          refine ⟨by simpa using hfi, ?_⟩
          rw [List.getD_eq_getElem?_getD,
            List.getElem?_set_ne (hpw'.1 f hf), ← List.getD_eq_getElem?_getD]
          exact hfo)
        hpw'.2
      have hms : ((s.set e.idx i : List Nat) : Multiset Nat) + {e.ofs} =
          (s : Multiset Nat) + {i} := by
        rw [← hofs]; exact multiset_set_add s e.idx i hidx
      rw [assignAll, List.map_cons, List.length_cons, List.range'_succ,
        ← Multiset.cons_coe, ← Multiset.cons_coe]
      simp only [← Multiset.singleton_add]
      calc ((assignAll (s.set e.idx i) rest (i + 1) : List Nat) : Multiset Nat)
            + ({e.ofs} + ((rest.map (fun e => e.ofs) : List Nat) : Multiset Nat))
          = (((assignAll (s.set e.idx i) rest (i + 1) : List Nat) : Multiset Nat)
              + ((rest.map (fun e => e.ofs) : List Nat) : Multiset Nat))
              + {e.ofs} := by abel
        _ = (((s.set e.idx i : List Nat) : Multiset Nat)
              + ((List.range' (i + 1) rest.length : List Nat) : Multiset Nat))
              + {e.ofs} := by rw [hrest]
        _ = (((s.set e.idx i : List Nat) : Multiset Nat) + {e.ofs})
              + ((List.range' (i + 1) rest.length : List Nat) : Multiset Nat) := by
            abel
        _ = ((s : Multiset Nat) + {i})
              + ((List.range' (i + 1) rest.length : List Nat) : Multiset Nat) := by
            rw [hms]
        _ = (s : Multiset Nat)
              + ({i} + ((List.range' (i + 1) rest.length : List Nat) : Multiset Nat)) := by
            abel

theorem dropWhile_ofs_eq_notile :
    ∀ (l : List IDXLIST), l.Pairwise (fun a b => a.ofs ≤ b.ofs) →
      (∀ e ∈ l, e.ofs ≤ NOTILE) →
      ∀ e ∈ l.dropWhile (fun e => e.ofs != NOTILE), e.ofs = NOTILE := by
  intro l
  induction l with
  | nil => intro _ _; simp
  | cons a t ih =>
      intro hsorted hle
      rw [List.dropWhile_cons]
      by_cases ha : a.ofs = NOTILE
      · rw [if_neg (by simp [ha])]
        intro e he
        rcases List.mem_cons.mp he with rfl | het
        · exact ha
        · have h1 : a.ofs ≤ e.ofs := (List.pairwise_cons.mp hsorted).1 e het
          have h2 : e.ofs ≤ NOTILE := hle e (List.mem_cons_of_mem a het)
          omega
      · rw [if_pos (by simp [ha])]
        exact ih (List.pairwise_cons.mp hsorted).2
          (fun e he => hle e (List.mem_cons_of_mem a he))

theorem range_map_getD (s : List Nat) :
    (List.range s.length).map (fun i => s.getD i 0) = s := by
  induction s with
  | nil => rfl
  | cons a t ih =>
      rw [List.length_cons, List.range_succ_eq_map, List.map_cons,
        List.map_map]
      have hc : ((fun i => (a :: t).getD i 0) ∘ Nat.succ) =
          (fun i => t.getD i 0) := by
        funext i
        simp [List.getD_cons_succ]
      rw [hc, ih]
      rfl

theorem mem_idxlistOf {s : List Nat} {e : IDXLIST} (he : e ∈ idxlistOf s) :
    e.idx < s.length ∧ e.ofs = s.getD e.idx 0 := by
  unfold idxlistOf at he
  simp only [List.mem_map, List.mem_range] at he
  obtain ⟨i, hi, rfl⟩ := he
  exact ⟨hi, rfl⟩

theorem idxlistOf_map_idx (s : List Nat) :
    (idxlistOf s).map (fun e => e.idx) = List.range s.length := by
  unfold idxlistOf
  rw [List.map_map]
  have hc : ((fun e : IDXLIST => e.idx) ∘ fun i => (⟨i, s.getD i 0⟩ : IDXLIST))
      = id := by
    funext i; rfl
  rw [hc, List.map_id]

theorem idxlistOf_map_ofs (s : List Nat) :
    (idxlistOf s).map (fun e => e.ofs) = s := by
  unfold idxlistOf
  rw [List.map_map]
  exact range_map_getD s

/-- C8, counterexample to the claim as stated: the column `[5, 5]` (two
records sharing surface offset 5) has one unique non-`NOTILE` offset, but
the conversion assigns the distinct ranks 0 and 1, so the resulting
multiset is `{0, 1}`, not `{0}`: the conversion is dense over the RECORDS
with an offset, not over the unique offsets.  The sorted input used is
`idxlist` itself, which is a valid `qsort` output for this column. -/
theorem convertField_unique_counterexample :
    (idxlistOf [5, 5]).Pairwise (fun a b => a.ofs ≤ b.ofs) ∧
      ¬ (Multiset.filter (fun x => x ≠ NOTILE)
            ((convertField [5, 5] (idxlistOf [5, 5]) : List Nat) : Multiset Nat) =
          Multiset.range
            ((([5, 5] : List Nat).filter (fun x => x != NOTILE)).dedup.length)) := by
  constructor
  · decide
  · decide

/-- C8, amended.  For every version >= 1 TOC column converted with preloading
enabled (`sorted` being any output the external `qsort` may produce: an
`ofs`-ascending permutation of `idxlist`), the multiset of values `≠
NOTILE` after conversion equals `{0, 1, ..., k-1}` where `k` is the number
of RECORDS whose offset is not `NOTILE` (counted with multiplicity, not the
number of unique offsets).  The same statement applies to the `midx` column
since the code runs the identical conversion on it. -/
theorem convertField_dense (s : List Nat) (sorted : List IDXLIST)
    (hperm : sorted.Perm (idxlistOf s))
    (hsorted : sorted.Pairwise (fun a b => a.ofs ≤ b.ofs))
    (hdword : ∀ x ∈ s, x < 2 ^ 32)
    (hlen : s.length ≤ NOTILE) :
    Multiset.filter (fun x => x ≠ NOTILE)
        ((convertField s sorted : List Nat) : Multiset Nat) =
      Multiset.range
        (Multiset.card
          (Multiset.filter (fun x => x ≠ NOTILE) ((s : List Nat) : Multiset Nat))) := by
  have hmemsorted : ∀ e ∈ sorted, e.idx < s.length ∧ e.ofs = s.getD e.idx 0 :=
    fun e he => mem_idxlistOf (hperm.subset he)
  have hpow : (2 : Nat) ^ 32 = 4294967296 := by norm_num
  have hofsle : ∀ e ∈ sorted, e.ofs ≤ NOTILE := by
    intro e he
    obtain ⟨hi, ho⟩ := hmemsorted e he
    have hmem : s.getD e.idx 0 ∈ s := by
      rw [List.getD_eq_getElem _ _ hi]
      exact List.getElem_mem hi
    have hx := hdword _ hmem
    rw [ho]
    unfold NOTILE
    omega
  have hSnotile := dropWhile_ofs_eq_notile sorted hsorted hofsle
  have hPsub : List.Sublist (sorted.takeWhile (fun e => e.ofs != NOTILE))
      sorted := List.takeWhile_sublist _
  have hPmem : ∀ e ∈ sorted.takeWhile (fun e => e.ofs != NOTILE),
      e.idx < s.length ∧ s.getD e.idx 0 = e.ofs := by
    intro e he
    obtain ⟨hi, ho⟩ := hmemsorted e (hPsub.subset he)
    exact ⟨hi, ho.symm⟩
  have hPofs : ∀ e ∈ sorted.takeWhile (fun e => e.ofs != NOTILE),
      e.ofs ≠ NOTILE := by
    intro e he
    simpa using List.mem_takeWhile_imp he
  have hnodup : (sorted.map (fun e => e.idx)).Nodup := by
    have h1 : (sorted.map (fun e => e.idx)).Perm (List.range s.length) := by
      rw [← idxlistOf_map_idx s]
      exact hperm.map _
    exact h1.nodup_iff.mpr (List.nodup_range _)
  have hPpw : (sorted.takeWhile (fun e => e.ofs != NOTILE)).Pairwise
      (fun a b => a.idx ≠ b.idx) := by
    have h2 : ((sorted.takeWhile (fun e => e.ofs != NOTILE)).map
        (fun e => e.idx)).Nodup := hnodup.sublist (hPsub.map _)
    exact List.pairwise_map.mp h2
  have hmain := assignAll_multiset
    (sorted.takeWhile (fun e => e.ofs != NOTILE)) s 0 hPmem hPpw
  have hofssum :
      (((sorted.takeWhile (fun e => e.ofs != NOTILE)).map (fun e => e.ofs)
          : List Nat) : Multiset Nat) +
        (((sorted.dropWhile (fun e => e.ofs != NOTILE)).map (fun e => e.ofs)
          : List Nat) : Multiset Nat) = (s : Multiset Nat) := by
    rw [Multiset.coe_add, ← List.map_append, List.takeWhile_append_dropWhile,
      Multiset.coe_eq_coe]
    have hmp := hperm.map (fun e => e.ofs)
    rwa [idxlistOf_map_ofs] at hmp
  have hPfix : Multiset.filter (fun x => x ≠ NOTILE)
      (((sorted.takeWhile (fun e => e.ofs != NOTILE)).map (fun e => e.ofs)
        : List Nat) : Multiset Nat) =
      (((sorted.takeWhile (fun e => e.ofs != NOTILE)).map (fun e => e.ofs)
        : List Nat) : Multiset Nat) := by
    rw [Multiset.filter_eq_self]
    intro a ha
    rw [Multiset.mem_coe] at ha
    obtain ⟨e, he, rfl⟩ := List.mem_map.mp ha
    exact hPofs e he
  have hSfix : Multiset.filter (fun x => x ≠ NOTILE)
      (((sorted.dropWhile (fun e => e.ofs != NOTILE)).map (fun e => e.ofs)
        : List Nat) : Multiset Nat) = 0 := by
    rw [Multiset.filter_eq_nil]
    intro a ha
    rw [Multiset.mem_coe] at ha
    obtain ⟨e, he, rfl⟩ := List.mem_map.mp ha
    simpa using hSnotile e he
  have hfilter_s : Multiset.filter (fun x => x ≠ NOTILE)
      ((s : List Nat) : Multiset Nat) =
      (((sorted.takeWhile (fun e => e.ofs != NOTILE)).map (fun e => e.ofs)
        : List Nat) : Multiset Nat) := by
    rw [← hofssum, Multiset.filter_add, hPfix, hSfix, add_zero]
  have hcard : Multiset.card (Multiset.filter (fun x => x ≠ NOTILE)
      ((s : List Nat) : Multiset Nat)) =
      (sorted.takeWhile (fun e => e.ofs != NOTILE)).length := by
    rw [hfilter_s, Multiset.coe_card, List.length_map]
  have hPlen : (sorted.takeWhile (fun e => e.ofs != NOTILE)).length ≤
      s.length := by
    have h3 := hPsub.length_le
    have h4 := hperm.length_eq
    unfold idxlistOf at h4
    rw [List.length_map, List.length_range] at h4
    omega
  have hrangefix : Multiset.filter (fun x => x ≠ NOTILE)
      ((List.range' 0 ((sorted.takeWhile (fun e => e.ofs != NOTILE)).length)
        : List Nat) : Multiset Nat) =
      ((List.range' 0 ((sorted.takeWhile (fun e => e.ofs != NOTILE)).length)
        : List Nat) : Multiset Nat) := by
    rw [Multiset.filter_eq_self]
    intro a ha
    rw [Multiset.mem_coe, List.mem_range'_1] at ha
    intro haeq
    omega
  have hfiltered := congrArg (Multiset.filter (fun x => x ≠ NOTILE)) hmain
  rw [Multiset.filter_add, Multiset.filter_add, hPfix, hfilter_s, hrangefix]
    at hfiltered
  have hcancel : Multiset.filter (fun x => x ≠ NOTILE)
      ((assignAll s (sorted.takeWhile (fun e => e.ofs != NOTILE)) 0
        : List Nat) : Multiset Nat) =
      ((List.range' 0 ((sorted.takeWhile (fun e => e.ofs != NOTILE)).length)
        : List Nat) : Multiset Nat) := by
    have h5 := hfiltered
    rw [add_comm (((sorted.takeWhile (fun e => e.ofs != NOTILE)).map
      (fun e => e.ofs) : List Nat) : Multiset Nat)
      ((List.range' 0 ((sorted.takeWhile (fun e => e.ofs != NOTILE)).length)
        : List Nat) : Multiset Nat)] at h5
    exact add_right_cancel h5
  rw [convertField, assignRanks_eq_assignAll, hcancel, hcard,
    ← Multiset.coe_range, List.range_eq_range']

theorem convertField_dense_witness :
    Multiset.filter (fun x => x ≠ NOTILE)
        ((convertField [3, 7, NOTILE] (idxlistOf [3, 7, NOTILE])
          : List Nat) : Multiset Nat) =
      Multiset.range
        (Multiset.card
          (Multiset.filter (fun x => x ≠ NOTILE)
            (([3, 7, NOTILE] : List Nat) : Multiset Nat))) :=
  convertField_dense [3, 7, NOTILE] (idxlistOf [3, 7, NOTILE])
    (List.Perm.refl _) (by decide) (by decide) (by decide)

/-!
`TileManager::CreateSpherePatch` lines 995-1133: mesh size bookkeeping and
triangle index generation.  The geometry (positions, normals, UVs, the
bounding box) is float-valued and not needed for the size/bounds claims;
the model captures the exact counting and index arithmetic of the source:
the `bseg` defaulting rule, `nVtx`, `nIdx`, the vertex double loop's
iteration count, and the full index buffer contents.
-/

/-- `if (bseg < 0 || ilat == nlat-1) bseg = (nlat-ilat)*res;`. -/
def bsegDefault (nlat ilat res : Nat) (bseg : Int) : Nat :=
  if bseg < 0 ∨ ilat = nlat - 1 then (nlat - ilat) * res else bseg.toNat

/-- `nVtx = (bseg+1)*(res+1); if (reduce) nVtx -= ((res+1)*res)/2;`. -/
def patchNVtx (res bseg : Nat) (reduce : Bool) : Nat :=
  (bseg + 1) * (res + 1) - (if reduce then ((res + 1) * res) / 2 else 0)

/-- `nIdx = (reduce ? res * (2*bseg-res) : 2*res*bseg) * 3;`. -/
def patchNIdx (res bseg : Nat) (reduce : Bool) : Nat :=
  (if reduce then res * (2 * bseg - res) else 2 * res * bseg) * 3

/-- Vertices written by the node loops from row `i` on, for `k` rows: row `i`
has `nseg + 1` nodes with `nseg = (reduce ? bseg-i : bseg)`. -/
def vtxRows (bseg : Nat) (reduce : Bool) : Nat → Nat → Nat
  | _, 0 => 0
  | i, k + 1 =>
    ((if reduce then bseg - i else bseg) + 1) + vtxRows bseg reduce (i + 1) k

/-- Total number of vertices written by the node loops (`res + 1` rows). -/
def patchVtxCount (res bseg : Nat) (reduce : Bool) : Nat :=
  vtxRows bseg reduce 0 (res + 1)

/-- One strip (`i` fixed) of the face loop: for each `j < nseg` emit the
triangle `(nofs0+j, nofs1+j, nofs0+j+1)` and, except at the reduced apex
seam (`reduce && j == nseg-1`, where the loop breaks), the second triangle
`(nofs0+j+1, nofs1+j, nofs1+j+1)`. -/
def stripIdx (nofs0 nofs1 nseg : Nat) (reduce : Bool) : List Nat :=
  ((List.range nseg).map (fun j =>
    [nofs0 + j, nofs1 + j, nofs0 + j + 1] ++
      (if reduce ∧ j = nseg - 1 then []
       else [nofs0 + j + 1, nofs1 + j, nofs1 + j + 1]))).flatten

/-- The face loop over the remaining `k` strips starting at row `i`, with
`nofs0` the vertex index of the first node of row `i`
(`nofs1 = nofs0 + nseg + 1`). -/
def facesGo (bseg : Nat) (reduce : Bool) : Nat → Nat → Nat → List Nat
  | 0, _, _ => []
  | k + 1, i, nofs0 =>
    stripIdx nofs0 (nofs0 + (if reduce then bseg - i else bseg) + 1)
        (if reduce then bseg - i else bseg) reduce ++
      facesGo bseg reduce k (i + 1)
        (nofs0 + (if reduce then bseg - i else bseg) + 1)

/-- The whole triangle index buffer generated by `CreateSpherePatch`. -/
def patchIdxList (res bseg : Nat) (reduce : Bool) : List Nat :=
  facesGo bseg reduce res 0 0

theorem vtxRows_false (bseg : Nat) :
    ∀ k i, vtxRows bseg false i k = k * (bseg + 1) := by
  intro k
  induction k with
  | zero => intro i; simp [vtxRows]
  | succ k ih =>
      intro i
      rw [vtxRows, ih (i + 1)]
      simp only [Bool.false_eq_true, if_false]
      ring

theorem vtxRows_shift (bseg : Nat) :
    ∀ k i, vtxRows bseg true (i + 1) k = vtxRows (bseg - 1) true i k := by
  intro k
  induction k with
  | zero => intro i; rfl
  | succ k ih =>
      intro i
      rw [vtxRows, vtxRows, ih (i + 1)]
      have h1 : bseg - (i + 1) = bseg - 1 - i := by omega
      rw [h1]
      simp

theorem vtxRows_true_add (res : Nat) :
    ∀ bseg, res ≤ bseg →
      vtxRows bseg true 0 (res + 1) + ((res + 1) * res) / 2 =
        (bseg + 1) * (res + 1) := by
  induction res with
  | zero =>
      intro bseg _
      rw [vtxRows, vtxRows]
      simp
  | succ res ih =>
      intro bseg hle
      cases bseg with
      | zero => omega
      | succ b =>
          have hres : res ≤ b := by omega
          have hIH := ih b hres
          rw [vtxRows, vtxRows_shift]
          have hb1 : b + 1 - 1 = b := by omega
          have hb0 : b + 1 - 0 = b + 1 := by omega
          rw [hb1, hb0]
          have hdiv : ((res + 1 + 1) * (res + 1)) / 2 =
              ((res + 1) * res) / 2 + (res + 1) := by
            have he : (res + 1 + 1) * (res + 1) =
                (res + 1) * res + (res + 1) * 2 := by ring
            rw [he]
            generalize (res + 1) * res = A
            omega
          rw [hdiv]
          calc b + 1 + 1 + vtxRows b true 0 (res + 1) +
                (((res + 1) * res) / 2 + (res + 1))
              = (vtxRows b true 0 (res + 1) + ((res + 1) * res) / 2) +
                (b + 1 + 1 + (res + 1)) := by ring
            _ = (b + 1) * (res + 1) + (b + 1 + 1 + (res + 1)) := by rw [hIH]
            _ = (b + 1 + 1) * (res + 1 + 1) := by ring

/-- The vertex double loop writes exactly `nVtx` vertices. -/
theorem patchVtxCount_eq_nVtx (res bseg : Nat) (reduce : Bool)
    (hred : reduce = true → res ≤ bseg) :
    patchVtxCount res bseg reduce = patchNVtx res bseg reduce := by
  cases reduce with
  | false =>
      rw [patchVtxCount, patchNVtx, vtxRows_false]
      simp [Nat.mul_comm]
  | true =>
      have hadd := vtxRows_true_add res bseg (hred rfl)
      rw [patchVtxCount, patchNVtx]
      simp only [if_pos]
      exact Nat.eq_sub_of_add_eq hadd

theorem sum_map_range_const (n c : Nat) (g : Nat → Nat)
    (h : ∀ j, j < n → g j = c) : ((List.range n).map g).sum = n * c := by
  induction n with
  | zero => simp
  | succ n ih =>
      rw [List.range_succ, List.map_append, List.sum_append,
        ih (fun j hj => h j (by omega))]
      have hn := h n (Nat.lt_succ_self n)
      simp [hn]
      ring

theorem stripIdx_length (nofs0 nofs1 nseg : Nat) (reduce : Bool) :
    (stripIdx nofs0 nofs1 nseg reduce).length =
      if reduce = true ∧ 0 < nseg then 6 * nseg - 3 else 6 * nseg := by
  unfold stripIdx
  rw [List.length_flatten, List.map_map]
  cases nseg with
  | zero => simp
  | succ n =>
      rw [List.range_succ, List.map_append, List.sum_append,
        sum_map_range_const n 6 _ ?hconst]
      case hconst =>
        intro j hj
        have hne : ¬ (reduce = true ∧ j = n) := by
          rintro ⟨-, hj2⟩
          omega
        simp [Function.comp, hne]
      cases hr : reduce <;> simp [hr, Function.comp] <;> omega

theorem facesGo_length_false (bseg : Nat) :
    ∀ k i n0, (facesGo bseg false k i n0).length = k * (6 * bseg) := by
  intro k
  induction k with
  | zero => intro i n0; simp [facesGo]
  | succ k ih =>
      intro i n0
      rw [facesGo]
      simp only [Bool.false_eq_true, if_false]
      rw [List.length_append, stripIdx_length, ih (i + 1)]
      simp
      ring

theorem facesGo_shift_true (bseg : Nat) :
    ∀ k i n0, facesGo bseg true k (i + 1) n0 = facesGo (bseg - 1) true k i n0 := by
  intro k
  induction k with
  | zero => intro i n0; rfl
  | succ k ih =>
      intro i n0
      rw [facesGo, facesGo, ih (i + 1)]
      have h1 : bseg - (i + 1) = bseg - 1 - i := by omega
      simp only [if_pos rfl, if_true, h1]

theorem facesGo_true_len_add (res : Nat) :
    ∀ bseg n0, res ≤ bseg →
      (facesGo bseg true res 0 n0).length + 3 * (res * res) =
        6 * (res * bseg) := by
  induction res with
  | zero => intro bseg n0 _; simp [facesGo]
  | succ res ih =>
      intro bseg n0 hle
      cases bseg with
      | zero => omega
      | succ b =>
          have hres : res ≤ b := by omega
          rw [facesGo]
          simp only [if_pos rfl, if_true]
          have h0 : b + 1 - 0 = b + 1 := by omega
          rw [h0, facesGo_shift_true]
          have hb1 : b + 1 - 1 = b := by omega
          rw [hb1, List.length_append, stripIdx_length]
          have hstrip : (if (true : Bool) = true ∧ 0 < b + 1
              then 6 * (b + 1) - 3 else 6 * (b + 1)) = 6 * b + 3 := by
            simp
            omega
          rw [hstrip]
          have hIH := ih b (n0 + (b + 1) + 1) hres
          calc (6 * b + 3 + (facesGo b true res 0 (n0 + (b + 1) + 1)).length) +
                3 * ((res + 1) * (res + 1))
              = ((facesGo b true res 0 (n0 + (b + 1) + 1)).length +
                  3 * (res * res)) + (6 * b + 6 * res + 6) := by ring
            _ = 6 * (res * b) + (6 * b + 6 * res + 6) := by rw [hIH]
            _ = 6 * ((res + 1) * (b + 1)) := by ring

/-- The face loop writes exactly `nIdx` index entries. -/
theorem patchIdxList_length (res bseg : Nat) (reduce : Bool)
    (hred : reduce = true → res ≤ bseg) :
    (patchIdxList res bseg reduce).length = patchNIdx res bseg reduce := by
  cases reduce with
  | false =>
      rw [patchIdxList, facesGo_length_false, patchNIdx]
      simp
      ring
  | true =>
      have hadd := facesGo_true_len_add res bseg 0 (hred rfl)
      have hle2 : res * res ≤ res * bseg :=
        Nat.mul_le_mul_left res (hred rfl)
      rw [patchIdxList, patchNIdx]
      simp only [if_pos]
      have hd : res * (2 * bseg - res) = 2 * (res * bseg) - res * res := by
        rw [Nat.mul_sub]
        ring_nf
      rw [hd]
      set A := res * bseg with hA
      set B := res * res with hB
      omega

theorem stripIdx_mem_bound (n0 nseg : Nat) (reduce : Bool) (x : Nat)
    (hx : x ∈ stripIdx n0 (n0 + nseg + 1) nseg reduce) :
    x < n0 + nseg + 1 + nseg + (if reduce = true then 0 else 1) := by
  unfold stripIdx at hx
  rw [List.mem_flatten] at hx
  obtain ⟨l, hl, hxl⟩ := hx
  rw [List.mem_map] at hl
  obtain ⟨j, hj, rfl⟩ := hl
  rw [List.mem_range] at hj
  by_cases hc : reduce = true ∧ j = nseg - 1
  · rw [if_pos hc] at hxl
    rw [if_pos hc.1]
    simp only [List.append_nil, List.mem_cons, List.not_mem_nil,
      or_false] at hxl
    rcases hxl with rfl | rfl | rfl <;> omega
  · rw [if_neg hc] at hxl
    simp only [List.mem_append, List.mem_cons, List.not_mem_nil,
      or_false] at hxl
    by_cases hr : reduce = true
    · have hj2 : j ≠ nseg - 1 := fun h => hc ⟨hr, h⟩
      rw [if_pos hr]
      rcases hxl with (rfl | rfl | rfl) | (rfl | rfl | rfl) <;> omega
    · rw [if_neg hr]
      rcases hxl with (rfl | rfl | rfl) | (rfl | rfl | rfl) <;> omega

theorem facesGo_bound_false (bseg : Nat) :
    ∀ k i n0, ∀ x ∈ facesGo bseg false k i n0,
      x < n0 + vtxRows bseg false i (k + 1) := by
  intro k
  induction k with
  | zero => intro i n0 x hx; simp [facesGo] at hx
  | succ k ih =>
      intro i n0 x hx
      rw [facesGo] at hx
      simp only [Bool.false_eq_true, if_false] at hx
      rw [List.mem_append] at hx
      have hv1 : vtxRows bseg false i (k + 1 + 1) = (k + 2) * (bseg + 1) :=
        vtxRows_false bseg (k + 2) i
      rcases hx with hx | hx
      · have hb := stripIdx_mem_bound n0 bseg false x hx
        simp only [Bool.false_eq_true, if_false] at hb
        rw [hv1]
        have h2 : 2 * (bseg + 1) ≤ (k + 2) * (bseg + 1) :=
          Nat.mul_le_mul_right _ (by omega)
        omega
      · have hrec := ih (i + 1) (n0 + bseg + 1) x hx
        rw [vtxRows_false bseg (k + 1) (i + 1)] at hrec
        rw [hv1]
        have hexp : (k + 2) * (bseg + 1) = (bseg + 1) + (k + 1) * (bseg + 1) := by
          ring
        omega

theorem facesGo_bound_true (bseg : Nat) :
    ∀ k i n0, i + k ≤ bseg →
      ∀ x ∈ facesGo bseg true k i n0,
        x < n0 + vtxRows bseg true i (k + 1) := by
  intro k
  induction k with
  | zero => intro i n0 _ x hx; simp [facesGo] at hx
  | succ k ih =>
      intro i n0 hik x hx
      rw [facesGo] at hx
      simp only [if_pos rfl, if_true] at hx
      rw [List.mem_append] at hx
      have hv : vtxRows bseg true i (k + 1 + 1) =
          ((bseg - i) + 1) + vtxRows bseg true (i + 1) (k + 1) := by
        rw [vtxRows]
        simp
      have hvnext : bseg - (i + 1) + 1 ≤ vtxRows bseg true (i + 1) (k + 1) := by
        rw [vtxRows]
        simp only [if_pos rfl, if_true]
        omega
      rcases hx with hx | hx
      · have hb := stripIdx_mem_bound n0 (bseg - i) true x hx
        simp only [if_pos rfl, if_true] at hb
        rw [hv]
        omega
      · have hrec := ih (i + 1) (n0 + (bseg - i) + 1) (by omega) x hx
        rw [hv]
        omega

/-- C9.  For any valid `CreateSpherePatch` parameters -- after the `bseg`
defaulting rule `if (bseg < 0 || ilat == nlat-1) bseg = (nlat-ilat)*res`,
and with `res ≤ bseg` whenever `reduce` is set (true of every call the
renderer makes, including `(nlng=32, nlat=8, ilat=0, res=12, bseg=15)`) --
the vertex loops write exactly `nVtx = (bseg+1)*(res+1)`, minus
`((res+1)*res)/2` when `reduce`, vertices; the face loop writes exactly
`nIdx` index entries; and every generated triangle index lies in
`[0, nVtx)`, so all index-buffer writes and vertex references stay in
bounds. -/
theorem createSpherePatch_size_and_bounds (nlat ilat res : Nat) (bseg : Int)
    (reduce : Bool)
    (hred : reduce = true → res ≤ bsegDefault nlat ilat res bseg) :
    patchVtxCount res (bsegDefault nlat ilat res bseg) reduce =
        patchNVtx res (bsegDefault nlat ilat res bseg) reduce ∧
      (patchIdxList res (bsegDefault nlat ilat res bseg) reduce).length =
        patchNIdx res (bsegDefault nlat ilat res bseg) reduce ∧
      ∀ x ∈ patchIdxList res (bsegDefault nlat ilat res bseg) reduce,
        x < patchNVtx res (bsegDefault nlat ilat res bseg) reduce := by
  refine ⟨patchVtxCount_eq_nVtx res _ reduce hred,
    patchIdxList_length res _ reduce hred, ?_⟩
  intro x hx
  rw [← patchVtxCount_eq_nVtx res _ reduce hred]
  cases hr : reduce with
  | false =>
      have hb := facesGo_bound_false (bsegDefault nlat ilat res bseg)
        res 0 0 x (by rw [hr] at hx; exact hx)
      simpa [patchVtxCount] using hb
  | true =>
      have hb := facesGo_bound_true (bsegDefault nlat ilat res bseg)
        res 0 0 (by simpa using hred hr) x (by rw [hr] at hx; exact hx)
      simpa [patchVtxCount] using hb

theorem createSpherePatch_size_and_bounds_witness :
    patchVtxCount 12 (bsegDefault 8 0 12 15) false =
        patchNVtx 12 (bsegDefault 8 0 12 15) false ∧
      (patchIdxList 12 (bsegDefault 8 0 12 15) false).length =
        patchNIdx 12 (bsegDefault 8 0 12 15) false ∧
      ∀ x ∈ patchIdxList 12 (bsegDefault 8 0 12 15) false,
        x < patchNVtx 12 (bsegDefault 8 0 12 15) false :=
  createSpherePatch_size_and_bounds 8 0 12 15 false (fun h => nomatch h)
